import Mathlib

/-!
Shallow embedding of the exam-seating allocation engine
(`ExamSeatingSystem.check_clashes` and `ExamSeatingSystem.allocate_session`
from `seating_arrangement.py`), together with proofs of the testable
properties stated in the specification.

Modelling conventions:
* Python dictionaries holding per-room assignments are modelled as
  association lists (`List (String × List String)`) with Python's
  "create-or-extend" update semantics.
* The enrollment index `self.course_enrollments` is read-only during
  allocation and is passed as a function `String → List String`
  (`.get(course, [])` returns `[]` for unknown courses).
* `buffer` is a `Nat`: the caller (`app.py`) obtains it from a number
  input with `min_value=0`, and the engine's contract requires
  `buffer ≥ 0`.  Likewise `Capacity` is a non-negative integer, so
  `max(0, capacity - buffer)` is exactly `Nat` truncated subtraction.
  Python's `take = min(...)` can be negative only when
  `space_in_room < 0`, which cannot happen here (`filled` never exceeds
  effective capacity); in `Nat` the corresponding `take = 0` leads to
  the same "skip this room" branch as a non-positive Python `take`.
* Python's `sorted(courses, key=..., reverse=True)` is a stable
  descending sort; `sortDesc` below is the stable descending insertion
  sort, which produces the same ordering.
-/

/-- One room of `self.rooms`: dict with keys
`'Room'`, `'Capacity'`, `'filled'`, `'assignments'`. -/
structure Room where
  name : String
  capacity : Nat
  filled : Nat
  assignments : List (String × List String)
deriving DecidableEq

/-- One entry of the global `self.allocations` log. -/
structure AllocationRecord where
  date : String
  isoDate : String
  day : String
  session : String
  course : String
  room : String
  count : Nat
  students : List String
deriving DecidableEq

/-- One entry of the global `self.room_stats` log. -/
structure RoomStat where
  date : String
  session : String
  room : String
  allocated : Nat
  free : Int
deriving DecidableEq

/-- One slot of `self.schedule`. -/
structure SlotInfo where
  date : String
  isoDate : String
  day : String
  session : String
  courses : List String
deriving DecidableEq

/-- The mutable state touched by `allocate_session`:
`self.rooms`, `self.allocations`, `self.room_stats`. -/
structure SystemState where
  rooms : List Room
  allocations : List AllocationRecord
  roomStats : List RoomStat
deriving DecidableEq

/-- Python `room['assignments'].get(course)`, with `[]` for a missing key. -/
def lookupAssign : List (String × List String) → String → List String
  | [], _ => []
  | p :: rest, c => if p.1 = c then p.2 else lookupAssign rest c

/-- Python
`if course not in room['assignments']: room['assignments'][course] = []`
followed by `room['assignments'][course].extend(batch)`:
extend the entry for `c` in place, or add a fresh entry at the end. -/
def extendAssign (a : List (String × List String)) (c : String)
    (batch : List String) : List (String × List String) :=
  match a with
  | [] => [(c, batch)]
  | p :: rest =>
    if p.1 = c then (p.1, p.2 ++ batch) :: rest
    else p :: extendAssign rest c batch

/-- Inner loop of `check_clashes`: walk one course's roster keeping the
set of rolls seen so far; `none` signals a clash (`return True`). -/
def scanRolls (seen : List String) : List String → Option (List String)
  | [] => some seen
  | r :: rs => if r ∈ seen then none else scanRolls (r :: seen) rs

/-- Outer loop of `check_clashes` over the courses of the slot. -/
def checkClashesFrom (enroll : String → List String) (seen : List String) :
    List String → Bool
  | [] => false
  | c :: cs =>
    match scanRolls seen (enroll c) with
    | none => true
    | some seen2 => checkClashesFrom enroll seen2 cs

/-- `ExamSeatingSystem.check_clashes(courses_in_slot)`. -/
def check_clashes (enroll : String → List String)
    (coursesInSlot : List String) : Bool :=
  checkClashesFrom enroll [] coursesInSlot

/-- Stable insertion into a list already sorted by strictly descending
`key`-order: `x` goes in front of the first element with a strictly
smaller key, i.e. after every element whose key ties with `x`. -/
def insertByDesc (key : String → Nat) (x : String) :
    List String → List String
  | [] => [x]
  | y :: ys =>
    if key x < key y then y :: insertByDesc key x ys
    else x :: y :: ys

/-- Python `sorted(courses, key=lambda c: len(enroll(c)), reverse=True)`:
stable sort by descending key. -/
def sortDesc (key : String → Nat) (l : List String) : List String :=
  l.foldr (insertByDesc key) []

/-- Per-course seat limit of a room:
`subj_limit = eff_cap // 2 if mode == 'sparse' else eff_cap`
with `eff_cap = max(0, room['Capacity'] - buffer)`. -/
def subjLimit (mode : String) (buffer : Nat) (r : Room) : Nat :=
  if mode = "sparse" then (r.capacity - buffer) / 2 else r.capacity - buffer

/-- `space_in_room = eff_cap - room['filled']`
(with `eff_cap = max(0, room['Capacity'] - buffer)`). -/
def spaceOf (buffer : Nat) (r : Room) : Nat :=
  (r.capacity - buffer) - r.filled

/-- `take = min(len(students), space_in_room, subj_limit)`. -/
def takeOf (buffer : Nat) (mode : String) (r : Room)
    (students : List String) : Nat :=
  min (min students.length (spaceOf buffer r)) (subjLimit mode buffer r)

/-- Inner loop of `allocate_session`: one course walking the room list.
Returns the updated rooms, the allocation records appended for this
course (in order), and the still-unseated students. -/
def allocCourseRooms (slot : SlotInfo) (buffer : Nat) (mode : String)
    (course : String) (students : List String) :
    List Room → List Room × List AllocationRecord × List String
  | [] => ([], [], students)
  | room :: rest =>
    if students.isEmpty then (room :: rest, [], students)
    else
      let tk := takeOf buffer mode room students
      if 0 < tk then
        let batch := students.take tk
        let room2 : Room :=
          { room with
            filled := room.filled + tk
            assignments := extendAssign room.assignments course batch }
        let rec1 : AllocationRecord :=
          { date := slot.date, isoDate := slot.isoDate, day := slot.day
            session := slot.session, course := course, room := room.name
            count := tk, students := batch }
        let out := allocCourseRooms slot buffer mode course (students.drop tk) rest
        (room2 :: out.1, rec1 :: out.2.1, out.2.2)
      else
        let out := allocCourseRooms slot buffer mode course students rest
        (room :: out.1, out.2.1, out.2.2)

/-- Outer loop of `allocate_session` over the sorted courses.  A course
with an empty roster is skipped (`if not students: continue`). -/
def allocCourses (slot : SlotInfo) (enroll : String → List String)
    (buffer : Nat) (mode : String) :
    List String → List Room → List Room × List AllocationRecord
  | [], rooms => (rooms, [])
  | course :: cs, rooms =>
    let students := enroll course
    if students.isEmpty then allocCourses slot enroll buffer mode cs rooms
    else
      let out := allocCourseRooms slot buffer mode course students rooms
      let out2 := allocCourses slot enroll buffer mode cs out.1
      (out2.1, out.2.1 ++ out2.2)

/-- Per-slot room reset: `r['filled'] = 0; r['assignments'] = {}`. -/
def resetRoom (r : Room) : Room :=
  { r with filled := 0, assignments := [] }

/-- `ExamSeatingSystem.allocate_session(slot_info, buffer, mode)`. -/
def allocate_session (st : SystemState) (enroll : String → List String)
    (slot : SlotInfo) (buffer : Nat) (mode : String) : SystemState :=
  let rooms0 := st.rooms.map resetRoom
  let coursesSorted :=
    sortDesc (fun c => (enroll c).length) slot.courses
  if check_clashes enroll slot.courses then
    { st with rooms := rooms0 }
  else
    let out := allocCourses slot enroll buffer mode coursesSorted rooms0
    let stats := out.1.map (fun r =>
      { date := slot.date, session := slot.session, room := r.name
        allocated := r.filled, free := (r.capacity : Int) - (r.filled : Int)
        : RoomStat })
    { rooms := out.1
      allocations := st.allocations ++ out.2
      roomStats := st.roomStats ++ stats }

/-- Sum of `Count` over the records carrying one room name. -/
def sumCounts : List AllocationRecord → String → Nat
  | [], _ => 0
  | rec :: recs, n => (if rec.room = n then rec.count else 0) + sumCounts recs n

/-- Sum of `filled` over the rooms of one name. -/
def sumFilled : List Room → String → Nat
  | [], _ => 0
  | r :: rs, n => (if r.name = n then r.filled else 0) + sumFilled rs n

/-- All rolls of the slot, in `check_clashes` traversal order. -/
def slotRolls (enroll : String → List String) (courses : List String) :
    List String :=
  courses.flatMap enroll


/-- Courses of the slot whose roster is non-empty (only these touch rooms
or produce records).  A clash-free slot lists each of them at most once. -/
def activeCourses (enroll : String → List String) (cs : List String) :
    List String :=
  cs.filter (fun c => !(enroll c).isEmpty)

/-- Concatenation, in append order, of the `Students` lists of the
records appended beyond position `base` of the allocation log for
course `c`. -/
def seatedFor (st : SystemState) (base : Nat) (c : String) :
    List String :=
  (((st.allocations.drop base).filter (fun rec => rec.course == c)).map
    AllocationRecord.students).flatten

/-- Enrollment index of the specification's ordering example:
course A has 50 candidates, B has 10, C has 30. -/
def enrollC8 : String → List String := fun c =>
  if c = "A" then List.replicate 50 "s"
  else if c = "B" then List.replicate 10 "s"
  else if c = "C" then List.replicate 30 "s"
  else []

/-- Concrete clash-free enrollment index used by the witnesses. -/
def enrollW : String → List String := fun c =>
  if c = "A" then ["s1", "s2", "s3"]
  else if c = "B" then ["s4"]
  else []

/-- Concrete clashing enrollment index: courses A and B share "x1". -/
def enrollClashW : String → List String := fun c =>
  if c = "A" then ["x1"]
  else if c = "B" then ["x1"]
  else []

/-- Concrete slot with two courses, used by the witnesses. -/
def slotW : SlotInfo :=
  { date := "01-01-2026", isoDate := "20260101", day := "Thursday"
    session := "Morning", courses := ["A", "B"] }

/-- Concrete slot with an empty course list. -/
def slotEmptyW : SlotInfo :=
  { date := "02-01-2026", isoDate := "20260102", day := "Friday"
    session := "Evening", courses := [] }

/-- Concrete two-room state (names distinct, logs empty). -/
def stW : SystemState :=
  { rooms := [{ name := "R1", capacity := 3, filled := 0, assignments := [] },
      { name := "R2", capacity := 2, filled := 0, assignments := [] }]
    allocations := [], roomStats := [] }

/-- The first room of `stW` as `allocate_session stW enrollW slotW 1
"dense"` leaves it. -/
def roomDenseW : Room :=
  { name := "R1", capacity := 3, filled := 2
    assignments := [("A", ["s1", "s2"])] }

/-- The first room of `stW` as `allocate_session stW enrollW slotW 1
"sparse"` leaves it. -/
def roomSparseW : Room :=
  { name := "R1", capacity := 3, filled := 2
    assignments := [("A", ["s1"]), ("B", ["s4"])] }

/-! ### Association-list lemmas -/

theorem lookupAssign_extendAssign_self (a : List (String × List String))
    (c : String) (batch : List String) :
    lookupAssign (extendAssign a c batch) c = lookupAssign a c ++ batch := by
  induction a with
  | nil => simp [extendAssign, lookupAssign]
  | cons p rest ih =>
    by_cases hp : p.1 = c
    · simp [extendAssign, lookupAssign, hp]
    · simp [extendAssign, lookupAssign, hp, ih]

theorem lookupAssign_extendAssign_ne (a : List (String × List String))
    (c c' : String) (batch : List String) (h : c' ≠ c) :
    lookupAssign (extendAssign a c batch) c' = lookupAssign a c' := by
  have hcc : c ≠ c' := fun hc => h hc.symm
  induction a with
  | nil => simp [extendAssign, lookupAssign, hcc]
  | cons p rest ih =>
    by_cases hp : p.1 = c
    · have hp' : p.1 ≠ c' := fun hc => h (hc.symm.trans hp)
      simp [extendAssign, lookupAssign, hp, hp', hcc]
    · simp [extendAssign, lookupAssign, hp, ih]

/-! ### `check_clashes` characterization

`check_clashes` returns `False` exactly when the concatenation of the
rosters of the slot's courses, in traversal order, has no duplicate. -/

theorem scanRolls_none_iff (rs : List String) :
    ∀ seen : List String, seen.Nodup →
      (scanRolls seen rs = none ↔ ¬ (rs ++ seen).Nodup) := by
  induction rs with
  | nil =>
    intro seen hseen
    simp [scanRolls, hseen]
  | cons r rest ih =>
    intro seen hseen
    by_cases h : r ∈ seen
    · simp only [scanRolls, if_pos h]
      constructor
      · intro _ hc
        rw [List.cons_append, List.nodup_cons] at hc
        exact hc.1 (List.mem_append_right rest h)
      · intro _; trivial
    · have hseen2 : (r :: seen).Nodup := List.nodup_cons.mpr ⟨h, hseen⟩
      have hperm : (rest ++ r :: seen).Perm (r :: (rest ++ seen)) :=
        List.perm_middle
      simp only [scanRolls, if_neg h, ih (r :: seen) hseen2]
      rw [hperm.nodup_iff]
      simp

theorem scanRolls_some (rs : List String) :
    ∀ seen seen' : List String, seen.Nodup →
      scanRolls seen rs = some seen' →
      seen'.Nodup ∧ ∀ x, x ∈ seen' ↔ x ∈ rs ∨ x ∈ seen := by
  induction rs with
  | nil =>
    intro seen seen' hseen hscan
    simp only [scanRolls, Option.some.injEq] at hscan
    subst hscan
    exact ⟨hseen, by simp⟩
  | cons r rest ih =>
    intro seen seen' hseen hscan
    by_cases h : r ∈ seen
    · simp [scanRolls, if_pos h] at hscan
    · have hseen2 : (r :: seen).Nodup := List.nodup_cons.mpr ⟨h, hseen⟩
      simp only [scanRolls, if_neg h] at hscan
      rcases ih (r :: seen) seen' hseen2 hscan with ⟨hnd, hmem⟩
      refine ⟨hnd, fun x => ?_⟩
      rw [hmem x]
      simp
      tauto

theorem checkClashesFrom_false_iff (enroll : String → List String)
    (cs : List String) :
    ∀ seen : List String, seen.Nodup →
      (checkClashesFrom enroll seen cs = false ↔
        (slotRolls enroll cs ++ seen).Nodup) := by
  induction cs with
  | nil =>
    intro seen hseen
    simp [checkClashesFrom, slotRolls, hseen]
  | cons c cs' ih =>
    intro seen hseen
    have hrolls : slotRolls enroll (c :: cs') =
        enroll c ++ slotRolls enroll cs' := by
      simp [slotRolls]
    cases hscan : scanRolls seen (enroll c) with
    | none =>
      simp only [checkClashesFrom, hscan]
      have hnot : ¬ (enroll c ++ seen).Nodup :=
        (scanRolls_none_iff (enroll c) seen hseen).mp hscan
      constructor
      · intro hfalse; cases hfalse
      · intro hnd
        exfalso
        apply hnot
        refine List.Nodup.sublist ?_ (hrolls ▸ hnd)
        rw [List.append_assoc]
        exact List.Sublist.append_left (List.sublist_append_right _ _) _
    | some seen2 =>
      simp only [checkClashesFrom, hscan]
      rcases scanRolls_some (enroll c) seen seen2 hseen hscan with ⟨hnd2, hmem2⟩
      have hecs : (enroll c ++ seen).Nodup := by
        by_contra hc
        rw [← scanRolls_none_iff (enroll c) seen hseen] at hc
        rw [hscan] at hc
        cases hc
      rw [ih seen2 hnd2, hrolls]
      have hmemiff : ∀ x, x ∈ seen2 ↔ x ∈ enroll c ++ seen := by
        intro x
        rw [hmem2 x, List.mem_append]
      have h1 : (slotRolls enroll cs' ++ seen2).Nodup ↔
          (slotRolls enroll cs' ++ (enroll c ++ seen)).Nodup := by
        rw [List.nodup_append, List.nodup_append]
        constructor
        · rintro ⟨ha, -, hd⟩
          exact ⟨ha, hecs, fun x hx hx' => hd hx ((hmemiff x).mpr hx')⟩
        · rintro ⟨ha, -, hd⟩
          exact ⟨ha, hnd2, fun x hx hx' => hd hx ((hmemiff x).mp hx')⟩
      have hperm : (slotRolls enroll cs' ++ (enroll c ++ seen)).Perm
          ((enroll c ++ slotRolls enroll cs') ++ seen) := by
        rw [← List.append_assoc]
        exact List.perm_append_comm.append_right seen
      exact h1.trans hperm.nodup_iff

theorem check_clashes_false_iff (enroll : String → List String)
    (cs : List String) :
    check_clashes enroll cs = false ↔ (slotRolls enroll cs).Nodup := by
  have := checkClashesFrom_false_iff enroll cs [] List.nodup_nil
  simpa [check_clashes] using this

theorem check_clashes_true_iff (enroll : String → List String)
    (cs : List String) :
    check_clashes enroll cs = true ↔ ¬ (slotRolls enroll cs).Nodup := by
  rw [← check_clashes_false_iff enroll cs]
  cases check_clashes enroll cs <;> simp

/-! ### Stable descending sort lemmas -/

theorem insertByDesc_perm (key : String → Nat) (x : String)
    (l : List String) : (insertByDesc key x l).Perm (x :: l) := by
  induction l with
  | nil => rfl
  | cons y ys ih =>
    by_cases h : key x < key y
    · simp only [insertByDesc, if_pos h]
      exact (ih.cons y).trans (List.Perm.swap x y ys)
    · simp [insertByDesc, if_neg h]

theorem sortDesc_perm (key : String → Nat) (l : List String) :
    (sortDesc key l).Perm l := by
  induction l with
  | nil => rfl
  | cons x xs ih =>
    exact (insertByDesc_perm key x (sortDesc key xs)).trans (ih.cons x)

theorem insertByDesc_pairwise (key : String → Nat) (x : String)
    (l : List String)
    (h : l.Pairwise (fun a b => key b ≤ key a)) :
    (insertByDesc key x l).Pairwise (fun a b => key b ≤ key a) := by
  induction l with
  | nil => simp [insertByDesc]
  | cons y ys ih =>
    rcases List.pairwise_cons.mp h with ⟨hy, hys⟩
    by_cases hlt : key x < key y
    · simp only [insertByDesc, if_pos hlt]
      rw [List.pairwise_cons]
      refine ⟨?_, ih hys⟩
      intro a ha
      have ha' : a ∈ x :: ys := (insertByDesc_perm key x ys).mem_iff.mp ha
      rcases List.mem_cons.mp ha' with rfl | ha'
      · exact Nat.le_of_lt hlt
      · exact hy a ha'
    · simp only [insertByDesc, if_neg hlt]
      rw [List.pairwise_cons]
      refine ⟨?_, h⟩
      intro a ha
      rcases List.mem_cons.mp ha with ha | ha
      · subst ha; exact Nat.le_of_not_lt hlt
      · exact Nat.le_trans (hy a ha) (Nat.le_of_not_lt hlt)

theorem sortDesc_pairwise (key : String → Nat) (l : List String) :
    (sortDesc key l).Pairwise (fun a b => key b ≤ key a) := by
  induction l with
  | nil => simp [sortDesc]
  | cons x xs ih => exact insertByDesc_pairwise key x (sortDesc key xs) ih

theorem insertByDesc_filter_eq (key : String → Nat) (x : String)
    (l : List String) (k : Nat) (hx : key x = k) :
    (insertByDesc key x l).filter (fun c => key c == k) =
      x :: l.filter (fun c => key c == k) := by
  induction l with
  | nil => simp [insertByDesc, List.filter_cons, hx]
  | cons y ys ih =>
    by_cases hlt : key x < key y
    · have hy : ¬ (key y = k) := by
        intro hc
        rw [hx, ← hc] at hlt
        exact Nat.lt_irrefl _ hlt
      simp only [insertByDesc, if_pos hlt]
      rw [List.filter_cons, List.filter_cons]
      simp [hy, ih]
    · simp only [insertByDesc, if_neg hlt]
      rw [List.filter_cons]
      simp [hx]

theorem insertByDesc_filter_ne (key : String → Nat) (x : String)
    (l : List String) (k : Nat) (hx : key x ≠ k) :
    (insertByDesc key x l).filter (fun c => key c == k) =
      l.filter (fun c => key c == k) := by
  induction l with
  | nil => simp [insertByDesc, List.filter_cons, hx]
  | cons y ys ih =>
    by_cases hlt : key x < key y
    · simp only [insertByDesc, if_pos hlt]
      rw [List.filter_cons, List.filter_cons]
      by_cases hy : key y = k <;> simp [hy, ih]
    · simp only [insertByDesc, if_neg hlt]
      rw [List.filter_cons]
      simp [hx]

theorem sortDesc_filter (key : String → Nat) (l : List String) (k : Nat) :
    (sortDesc key l).filter (fun c => key c == k) =
      l.filter (fun c => key c == k) := by
  induction l with
  | nil => rfl
  | cons x xs ih =>
    show (insertByDesc key x (sortDesc key xs)).filter _ = _
    by_cases hx : key x = k
    · rw [insertByDesc_filter_eq key x (sortDesc key xs) k hx, ih,
        List.filter_cons]
      simp [hx]
    · rw [insertByDesc_filter_ne key x (sortDesc key xs) k hx, ih,
        List.filter_cons]
      simp [hx]

/-! ### Inner-loop (`allocCourseRooms`) lemmas -/

theorem sumCounts_append (recs recs' : List AllocationRecord) (n : String) :
    sumCounts (recs ++ recs') n = sumCounts recs n + sumCounts recs' n := by
  induction recs with
  | nil => simp [sumCounts]
  | cons rec recs ih =>
    rw [List.cons_append]
    simp only [sumCounts]
    rw [ih]
    omega

theorem takeOf_le_space (b : Nat) (mode : String) (r : Room)
    (students : List String) : takeOf b mode r students ≤ spaceOf b r :=
  le_trans (min_le_left _ _) (min_le_right _ _)

theorem takeOf_le_subjLimit (b : Nat) (mode : String) (r : Room)
    (students : List String) :
    takeOf b mode r students ≤ subjLimit mode b r :=
  min_le_right _ _

theorem takeOf_le_length (b : Nat) (mode : String) (r : Room)
    (students : List String) :
    takeOf b mode r students ≤ students.length :=
  le_trans (min_le_left _ _) (min_le_left _ _)

theorem allocCourseRooms_names (slot : SlotInfo) (b : Nat) (mode : String)
    (course : String) :
    ∀ (rooms : List Room) (students : List String),
      ((allocCourseRooms slot b mode course students rooms).1).map Room.name =
        rooms.map Room.name := by
  intro rooms
  induction rooms with
  | nil => intro students; simp [allocCourseRooms]
  | cons room rest ih =>
    intro students
    by_cases hemp : students.isEmpty
    · simp [allocCourseRooms, hemp]
    · by_cases htk : 0 < takeOf b mode room students
      · simp [allocCourseRooms, hemp, htk, ih]
      · simp [allocCourseRooms, hemp, htk, ih]

theorem allocCourseRooms_filled_le (slot : SlotInfo) (b : Nat) (mode : String)
    (course : String) :
    ∀ (rooms : List Room) (students : List String),
      (∀ r ∈ rooms, r.filled ≤ r.capacity - b) →
      ∀ r' ∈ (allocCourseRooms slot b mode course students rooms).1,
        r'.filled ≤ r'.capacity - b := by
  intro rooms
  induction rooms with
  | nil => intro students _ r' hr'; simp [allocCourseRooms] at hr'
  | cons room rest ih =>
    intro students hinv r' hr'
    have hhead := hinv room (by simp)
    have htail : ∀ r ∈ rest, r.filled ≤ r.capacity - b :=
      fun r hr => hinv r (List.mem_cons_of_mem _ hr)
    by_cases hemp : students.isEmpty
    · simp only [allocCourseRooms, if_pos hemp] at hr'
      exact hinv r' hr'
    · by_cases htk : 0 < takeOf b mode room students
      · simp only [allocCourseRooms, if_neg hemp, if_pos htk] at hr'
        rcases List.mem_cons.mp hr' with rfl | hr'
        · have hsp := takeOf_le_space b mode room students
          simp only [spaceOf] at hsp
          simp only []
          omega
        · exact ih (students.drop _) htail r' hr'
      · simp only [allocCourseRooms, if_neg hemp, if_neg htk] at hr'
        rcases List.mem_cons.mp hr' with rfl | hr'
        · exact hhead
        · exact ih students htail r' hr'

theorem allocCourseRooms_students_eq (slot : SlotInfo) (b : Nat)
    (mode : String) (course : String) :
    ∀ (rooms : List Room) (students : List String),
      (((allocCourseRooms slot b mode course students rooms).2.1).map
          AllocationRecord.students).flatten ++
        (allocCourseRooms slot b mode course students rooms).2.2 = students := by
  intro rooms
  induction rooms with
  | nil => intro students; simp [allocCourseRooms]
  | cons room rest ih =>
    intro students
    by_cases hemp : students.isEmpty
    · simp [allocCourseRooms, hemp]
    · by_cases htk : 0 < takeOf b mode room students
      · simp only [allocCourseRooms, if_neg hemp, if_pos htk, List.map_cons,
          List.flatten_cons, List.append_assoc]
        rw [ih (students.drop _)]
        exact List.take_append_drop _ students
      · simp only [allocCourseRooms, if_neg hemp, if_neg htk]
        exact ih students

theorem allocCourseRooms_rec_course (slot : SlotInfo) (b : Nat)
    (mode : String) (course : String) :
    ∀ (rooms : List Room) (students : List String),
      ∀ rec ∈ (allocCourseRooms slot b mode course students rooms).2.1,
        rec.course = course := by
  intro rooms
  induction rooms with
  | nil => intro students rec hrec; simp [allocCourseRooms] at hrec
  | cons room rest ih =>
    intro students rec hrec
    by_cases hemp : students.isEmpty
    · simp [allocCourseRooms, hemp] at hrec
    · by_cases htk : 0 < takeOf b mode room students
      · simp only [allocCourseRooms, if_neg hemp, if_pos htk] at hrec
        rcases List.mem_cons.mp hrec with rfl | hrec
        · rfl
        · exact ih (students.drop _) rec hrec
      · simp only [allocCourseRooms, if_neg hemp, if_neg htk] at hrec
        exact ih students rec hrec

theorem allocCourseRooms_sum (slot : SlotInfo) (b : Nat) (mode : String)
    (course : String) :
    ∀ (rooms : List Room) (students : List String) (n : String),
      sumFilled (allocCourseRooms slot b mode course students rooms).1 n =
        sumFilled rooms n +
          sumCounts (allocCourseRooms slot b mode course students rooms).2.1 n := by
  intro rooms
  induction rooms with
  | nil => intro students n; simp [allocCourseRooms, sumFilled, sumCounts]
  | cons room rest ih =>
    intro students n
    by_cases hemp : students.isEmpty
    · simp [allocCourseRooms, hemp, sumCounts]
    · by_cases htk : 0 < takeOf b mode room students
      · simp only [allocCourseRooms, if_neg hemp, if_pos htk, sumFilled,
          sumCounts, ih (students.drop _) n]
        by_cases hn : room.name = n <;> (simp [hn]; try omega)
      · simp only [allocCourseRooms, if_neg hemp, if_neg htk, sumFilled,
          sumCounts, ih students n]
        omega

theorem allocCourseRooms_assign_bound (slot : SlotInfo) (b : Nat)
    (mode : String) (course : String) :
    ∀ (rooms : List Room) (students : List String),
      (∀ r ∈ rooms, lookupAssign r.assignments course = [] ∧
        ∀ c', (lookupAssign r.assignments c').length ≤ subjLimit mode b r) →
      ∀ r' ∈ (allocCourseRooms slot b mode course students rooms).1,
        ∀ c', (lookupAssign r'.assignments c').length ≤ subjLimit mode b r' := by
  intro rooms
  induction rooms with
  | nil => intro students _ r' hr'; simp [allocCourseRooms] at hr'
  | cons room rest ih =>
    intro students hinv r' hr' c'
    have hhead := hinv room (by simp)
    have htail : ∀ r ∈ rest, lookupAssign r.assignments course = [] ∧
        ∀ c', (lookupAssign r.assignments c').length ≤ subjLimit mode b r :=
      fun r hr => hinv r (List.mem_cons_of_mem _ hr)
    by_cases hemp : students.isEmpty
    · simp only [allocCourseRooms, if_pos hemp] at hr'
      exact (hinv r' hr').2 c'
    · by_cases htk : 0 < takeOf b mode room students
      · simp only [allocCourseRooms, if_neg hemp, if_pos htk] at hr'
        rcases List.mem_cons.mp hr' with rfl | hr'
        · by_cases hc : c' = course
          · subst hc
            simp only [lookupAssign_extendAssign_self, hhead.1,
              List.nil_append, List.length_take]
            have h1 := takeOf_le_subjLimit b mode room students
            have h2 := takeOf_le_length b mode room students
            simp only [subjLimit] at h1 ⊢
            omega
          · simp only [lookupAssign_extendAssign_ne _ _ _ _ hc]
            exact hhead.2 c'
        · exact ih (students.drop _) htail r' hr' c'
      · simp only [allocCourseRooms, if_neg hemp, if_neg htk] at hr'
        rcases List.mem_cons.mp hr' with rfl | hr'
        · exact hhead.2 c'
        · exact ih students htail r' hr' c'

theorem allocCourseRooms_assign_untouched (slot : SlotInfo) (b : Nat)
    (mode : String) (course c' : String) (hne : c' ≠ course) :
    ∀ (rooms : List Room) (students : List String),
      (∀ r ∈ rooms, lookupAssign r.assignments c' = []) →
      ∀ r' ∈ (allocCourseRooms slot b mode course students rooms).1,
        lookupAssign r'.assignments c' = [] := by
  intro rooms
  induction rooms with
  | nil => intro students _ r' hr'; simp [allocCourseRooms] at hr'
  | cons room rest ih =>
    intro students hinv r' hr'
    have hhead := hinv room (by simp)
    have htail : ∀ r ∈ rest, lookupAssign r.assignments c' = [] :=
      fun r hr => hinv r (List.mem_cons_of_mem _ hr)
    by_cases hemp : students.isEmpty
    · simp only [allocCourseRooms, if_pos hemp] at hr'
      exact hinv r' hr'
    · by_cases htk : 0 < takeOf b mode room students
      · simp only [allocCourseRooms, if_neg hemp, if_pos htk] at hr'
        rcases List.mem_cons.mp hr' with rfl | hr'
        · simpa [lookupAssign_extendAssign_ne _ _ _ _ hne] using hhead
        · exact ih (students.drop _) htail r' hr'
      · simp only [allocCourseRooms, if_neg hemp, if_neg htk] at hr'
        rcases List.mem_cons.mp hr' with rfl | hr'
        · exact hhead
        · exact ih students htail r' hr'

theorem subjLimit_of_ne (mode : String) (h : mode ≠ "sparse") (b : Nat)
    (r : Room) : subjLimit mode b r = subjLimit "dense" b r := by
  simp [subjLimit, h]

theorem allocCourseRooms_mode_fallback (slot : SlotInfo) (b : Nat)
    (mode : String) (h : mode ≠ "sparse") (course : String) :
    ∀ (rooms : List Room) (students : List String),
      allocCourseRooms slot b mode course students rooms =
        allocCourseRooms slot b "dense" course students rooms := by
  intro rooms
  have htake : ∀ (r : Room) (students : List String),
      takeOf b mode r students = takeOf b "dense" r students := by
    intro r students
    simp [takeOf, subjLimit_of_ne mode h]
  induction rooms with
  | nil => intro students; rfl
  | cons room rest ih =>
    intro students
    by_cases hemp : students.isEmpty
    · simp [allocCourseRooms, hemp]
    · by_cases htk : 0 < takeOf b mode room students
      · have htk' : 0 < takeOf b "dense" room students := htake room students ▸ htk
        simp only [allocCourseRooms, if_neg hemp, if_pos htk, if_pos htk',
          htake room students, ih (students.drop _)]
      · have htk' : ¬ 0 < takeOf b "dense" room students := htake room students ▸ htk
        simp only [allocCourseRooms, if_neg hemp, if_neg htk, if_neg htk',
          ih students]

/-! ### Outer-loop (`allocCourses`) lemmas -/

theorem allocCourses_names (slot : SlotInfo) (enroll : String → List String)
    (b : Nat) (mode : String) :
    ∀ (cs : List String) (rooms : List Room),
      ((allocCourses slot enroll b mode cs rooms).1).map Room.name =
        rooms.map Room.name := by
  intro cs
  induction cs with
  | nil => intro rooms; simp [allocCourses]
  | cons course cs' ih =>
    intro rooms
    by_cases hemp : (enroll course).isEmpty
    · simp only [allocCourses, if_pos hemp]
      exact ih rooms
    · simp only [allocCourses, if_neg hemp]
      rw [ih, allocCourseRooms_names]

theorem allocCourses_filled_le (slot : SlotInfo)
    (enroll : String → List String) (b : Nat) (mode : String) :
    ∀ (cs : List String) (rooms : List Room),
      (∀ r ∈ rooms, r.filled ≤ r.capacity - b) →
      ∀ r' ∈ (allocCourses slot enroll b mode cs rooms).1,
        r'.filled ≤ r'.capacity - b := by
  intro cs
  induction cs with
  | nil => intro rooms hinv r' hr'; exact hinv r' hr'
  | cons course cs' ih =>
    intro rooms hinv r' hr'
    by_cases hemp : (enroll course).isEmpty
    · simp only [allocCourses, if_pos hemp] at hr'
      exact ih rooms hinv r' hr'
    · simp only [allocCourses, if_neg hemp] at hr'
      exact ih _ (allocCourseRooms_filled_le slot b mode course rooms
        (enroll course) hinv) r' hr'

theorem allocCourses_sum (slot : SlotInfo) (enroll : String → List String)
    (b : Nat) (mode : String) :
    ∀ (cs : List String) (rooms : List Room) (n : String),
      sumFilled (allocCourses slot enroll b mode cs rooms).1 n =
        sumFilled rooms n +
          sumCounts (allocCourses slot enroll b mode cs rooms).2 n := by
  intro cs
  induction cs with
  | nil => intro rooms n; simp [allocCourses, sumCounts]
  | cons course cs' ih =>
    intro rooms n
    by_cases hemp : (enroll course).isEmpty
    · simp only [allocCourses, if_pos hemp]
      exact ih rooms n
    · simp only [allocCourses, if_neg hemp]
      rw [sumCounts_append, ih, allocCourseRooms_sum]
      omega

theorem allocCourses_rec_course_mem (slot : SlotInfo)
    (enroll : String → List String) (b : Nat) (mode : String) :
    ∀ (cs : List String) (rooms : List Room),
      ∀ rec ∈ (allocCourses slot enroll b mode cs rooms).2,
        rec.course ∈ cs := by
  intro cs
  induction cs with
  | nil => intro rooms rec hrec; simp [allocCourses] at hrec
  | cons course cs' ih =>
    intro rooms rec hrec
    by_cases hemp : (enroll course).isEmpty
    · simp only [allocCourses, if_pos hemp] at hrec
      exact List.mem_cons_of_mem _ (ih rooms rec hrec)
    · simp only [allocCourses, if_neg hemp] at hrec
      rcases List.mem_append.mp hrec with hrec | hrec
      · rw [allocCourseRooms_rec_course slot b mode course rooms
          (enroll course) rec hrec]
        exact List.mem_cons_self _ _
      · exact List.mem_cons_of_mem _ (ih _ rec hrec)

theorem mem_slotRolls (enroll : String → List String) (cs : List String)
    (c : String) (hc : c ∈ cs) (x : String) (hx : x ∈ enroll c) :
    x ∈ slotRolls enroll cs :=
  List.mem_flatMap_of_mem hc hx

theorem activeCourses_nodup (enroll : String → List String) :
    ∀ cs : List String, (slotRolls enroll cs).Nodup →
      (activeCourses enroll cs).Nodup := by
  intro cs
  induction cs with
  | nil => intro _; simp [activeCourses]
  | cons c cs' ih =>
    intro hnd
    have hcons : slotRolls enroll (c :: cs') =
        enroll c ++ slotRolls enroll cs' := by simp [slotRolls]
    rw [hcons] at hnd
    rcases List.nodup_append.mp hnd with ⟨h1, h2, hdisj⟩
    by_cases hemp : (enroll c).isEmpty
    · simpa [activeCourses, List.filter_cons, hemp] using ih h2
    · have hne : enroll c ≠ [] := fun hc' => hemp (by simp [hc'])
      rcases List.exists_mem_of_ne_nil _ hne with ⟨x, hx⟩
      have hnotin : c ∉ activeCourses enroll cs' := by
        intro hmem
        have hc' : c ∈ cs' := List.mem_of_mem_filter hmem
        exact hdisj hx (mem_slotRolls enroll cs' c hc' x hx)
      have hval : activeCourses enroll (c :: cs') =
          c :: activeCourses enroll cs' := by
        simp [activeCourses, List.filter_cons, hemp]
      rw [hval]
      exact List.nodup_cons.mpr ⟨hnotin, ih h2⟩

theorem allocCourses_course_records (slot : SlotInfo)
    (enroll : String → List String) (b : Nat) (mode : String) :
    ∀ (cs : List String) (rooms : List Room),
      (activeCourses enroll cs).Nodup →
      ∀ c ∈ cs, ∃ t,
        ((((allocCourses slot enroll b mode cs rooms).2).filter
            (fun rec => rec.course == c)).map AllocationRecord.students).flatten
          ++ t = enroll c := by
  intro cs
  induction cs with
  | nil => intro rooms _ c hc; simp at hc
  | cons course cs' ih =>
    intro rooms hnd c hc
    by_cases hemp : (enroll course).isEmpty
    · have hnd' : (activeCourses enroll cs').Nodup := by
        simpa [activeCourses, List.filter_cons, hemp] using hnd
      simp only [allocCourses, if_pos hemp]
      rcases List.mem_cons.mp hc with rfl | hc
      · by_cases hmem : c ∈ cs'
        · exact ih rooms hnd' c hmem
        · refine ⟨[], ?_⟩
          have hfil : ((allocCourses slot enroll b mode cs' rooms).2).filter
              (fun rec => rec.course == c) = [] := by
            rw [List.filter_eq_nil_iff]
            intro rec hrec
            simp only [beq_iff_eq]
            intro hcourse
            exact hmem (hcourse ▸
              allocCourses_rec_course_mem slot enroll b mode cs' rooms rec hrec)
          rw [hfil]
          simpa using (List.isEmpty_iff.mp hemp).symm
      · exact ih rooms hnd' c hc
    · have hnd2 : (activeCourses enroll (course :: cs')) =
          course :: activeCourses enroll cs' := by
        simp [activeCourses, List.filter_cons, hemp]
      rw [hnd2] at hnd
      rcases List.nodup_cons.mp hnd with ⟨hnotin, hnd'⟩
      have hcourse_notin : course ∉ cs' := by
        intro hmem
        exact hnotin (List.mem_filter.mpr ⟨hmem, by simpa using hemp⟩)
      simp only [allocCourses, if_neg hemp, List.filter_append]
      rcases List.mem_cons.mp hc with rfl | hc
      · have hfil1 : ((allocCourseRooms slot b mode c (enroll c) rooms).2.1).filter
            (fun rec => rec.course == c) =
            (allocCourseRooms slot b mode c (enroll c) rooms).2.1 := by
          rw [List.filter_eq_self]
          intro rec hrec
          simp [allocCourseRooms_rec_course slot b mode c rooms (enroll c) rec hrec]
        have hfil2 : ((allocCourses slot enroll b mode cs'
              (allocCourseRooms slot b mode c (enroll c) rooms).1).2).filter
            (fun rec => rec.course == c) = [] := by
          rw [List.filter_eq_nil_iff]
          intro rec hrec
          simp only [beq_iff_eq]
          intro hcourse
          exact hcourse_notin (hcourse ▸
            allocCourses_rec_course_mem slot enroll b mode cs' _ rec hrec)
        rw [hfil1, hfil2, List.append_nil]
        exact ⟨(allocCourseRooms slot b mode c (enroll c) rooms).2.2,
          allocCourseRooms_students_eq slot b mode c rooms (enroll c)⟩
      · have hcne : c ≠ course := fun hcc => hcourse_notin (hcc ▸ hc)
        have hfil1 : ((allocCourseRooms slot b mode course (enroll course)
              rooms).2.1).filter (fun rec => rec.course == c) = [] := by
          rw [List.filter_eq_nil_iff]
          intro rec hrec
          simp only [beq_iff_eq]
          intro hcourse
          exact hcne (hcourse ▸ allocCourseRooms_rec_course slot b mode course
            rooms (enroll course) rec hrec)
        rw [hfil1, List.nil_append]
        exact ih _ hnd' c hc

theorem allocCourses_assign_bound (slot : SlotInfo)
    (enroll : String → List String) (b : Nat) (mode : String) :
    ∀ (cs : List String) (rooms : List Room),
      (activeCourses enroll cs).Nodup →
      (∀ c ∈ cs, ¬ (enroll c).isEmpty →
        ∀ r ∈ rooms, lookupAssign r.assignments c = []) →
      (∀ r ∈ rooms, ∀ c',
        (lookupAssign r.assignments c').length ≤ subjLimit mode b r) →
      ∀ r' ∈ (allocCourses slot enroll b mode cs rooms).1,
        ∀ c', (lookupAssign r'.assignments c').length ≤ subjLimit mode b r' := by
  intro cs
  induction cs with
  | nil => intro rooms _ _ hJ r' hr'; exact hJ r' hr'
  | cons course cs' ih =>
    intro rooms hnd hJ2 hJ r' hr'
    by_cases hemp : (enroll course).isEmpty
    · have hnd' : (activeCourses enroll cs').Nodup := by
        simpa [activeCourses, List.filter_cons, hemp] using hnd
      simp only [allocCourses, if_pos hemp] at hr'
      exact ih rooms hnd'
        (fun c hc hcne => hJ2 c (List.mem_cons_of_mem _ hc) hcne) hJ r' hr'
    · have hnd2 : (activeCourses enroll (course :: cs')) =
          course :: activeCourses enroll cs' := by
        simp [activeCourses, List.filter_cons, hemp]
      rw [hnd2] at hnd
      rcases List.nodup_cons.mp hnd with ⟨hnotin, hnd'⟩
      have hcourse_notin : course ∉ cs' := by
        intro hmem
        exact hnotin (List.mem_filter.mpr ⟨hmem, by simpa using hemp⟩)
      simp only [allocCourses, if_neg hemp] at hr'
      refine ih _ hnd' ?_ ?_ r' hr'
      · intro c hc hcne
        have hcnecourse : c ≠ course := fun hcc => hcourse_notin (hcc ▸ hc)
        exact allocCourseRooms_assign_untouched slot b mode course c hcnecourse
          rooms (enroll course)
          (fun r hr => hJ2 c (List.mem_cons_of_mem _ hc) hcne r hr)
      · refine allocCourseRooms_assign_bound slot b mode course rooms
          (enroll course) ?_
        intro r hr
        exact ⟨hJ2 course (List.mem_cons_self _ _) hemp r hr, hJ r hr⟩

theorem allocCourses_mode_fallback (slot : SlotInfo)
    (enroll : String → List String) (b : Nat) (mode : String)
    (h : mode ≠ "sparse") :
    ∀ (cs : List String) (rooms : List Room),
      allocCourses slot enroll b mode cs rooms =
        allocCourses slot enroll b "dense" cs rooms := by
  intro cs
  induction cs with
  | nil => intro rooms; rfl
  | cons course cs' ih =>
    intro rooms
    by_cases hemp : (enroll course).isEmpty
    · simp only [allocCourses, if_pos hemp, ih]
    · simp only [allocCourses, if_neg hemp,
        allocCourseRooms_mode_fallback slot b mode h course rooms
          (enroll course), ih]

/-! ### `sumFilled` helper lemmas -/

theorem sumFilled_eq_zero_of_not_mem (rooms : List Room) (n : String)
    (h : n ∉ rooms.map Room.name) : sumFilled rooms n = 0 := by
  induction rooms with
  | nil => rfl
  | cons room rest ih =>
    have h1 : room.name ≠ n := by
      intro hc
      exact h (by simp [hc])
    have h2 : n ∉ rest.map Room.name := fun hc => h (by simp [hc])
    simp [sumFilled, h1, ih h2]

theorem sumFilled_zero (rooms : List Room) (n : String)
    (h : ∀ r ∈ rooms, r.filled = 0) : sumFilled rooms n = 0 := by
  induction rooms with
  | nil => rfl
  | cons room rest ih =>
    have := h room (by simp)
    simp [sumFilled, this, ih (fun r hr => h r (List.mem_cons_of_mem _ hr))]

theorem sumFilled_eq_filled (rooms : List Room)
    (hnd : (rooms.map Room.name).Nodup) :
    ∀ r ∈ rooms, sumFilled rooms r.name = r.filled := by
  induction rooms with
  | nil => intro r hr; simp at hr
  | cons room rest ih =>
    intro r hr
    rw [List.map_cons, List.nodup_cons] at hnd
    rcases hnd with ⟨hnotin, hnd'⟩
    rcases List.mem_cons.mp hr with rfl | hr
    · simp [sumFilled, sumFilled_eq_zero_of_not_mem rest r.name hnotin]
    · have hne : room.name ≠ r.name := by
        intro hc
        exact hnotin (hc ▸ List.mem_map_of_mem Room.name hr)
      simp [sumFilled, hne, ih hnd' r hr]

/-! ### Bridging lemmas for `allocate_session` -/

theorem mem_reset_rooms (rooms : List Room) :
    ∀ r ∈ rooms.map resetRoom, r.filled = 0 ∧ r.assignments = [] := by
  intro r hr
  rcases List.mem_map.mp hr with ⟨r0, _, rfl⟩
  exact ⟨rfl, rfl⟩

theorem resetRooms_names (rooms : List Room) :
    (rooms.map resetRoom).map Room.name = rooms.map Room.name := by
  rw [List.map_map]
  exact List.map_congr_left (fun r _ => rfl)

/-- In the clash-free branch, the rooms after the slot are those computed
by `allocCourses` on the reset pool and the sorted courses. -/
theorem allocate_session_no_clash (st : SystemState)
    (enroll : String → List String) (slot : SlotInfo) (b : Nat)
    (mode : String) (h : check_clashes enroll slot.courses = false) :
    allocate_session st enroll slot b mode =
      { rooms := (allocCourses slot enroll b mode
          (sortDesc (fun c => (enroll c).length) slot.courses)
          (st.rooms.map resetRoom)).1
        allocations := st.allocations ++ (allocCourses slot enroll b mode
          (sortDesc (fun c => (enroll c).length) slot.courses)
          (st.rooms.map resetRoom)).2
        roomStats := st.roomStats ++ ((allocCourses slot enroll b mode
          (sortDesc (fun c => (enroll c).length) slot.courses)
          (st.rooms.map resetRoom)).1).map (fun r =>
            { date := slot.date, session := slot.session, room := r.name
              allocated := r.filled
              free := (r.capacity : Int) - (r.filled : Int) : RoomStat }) } := by
  simp only [allocate_session, h]
  rfl

/-- Non-empty roster courses of a clash-free slot are pairwise distinct,
in sorted order as well. -/
theorem activeCourses_sorted_nodup (enroll : String → List String)
    (cs : List String) (h : check_clashes enroll cs = false) :
    (activeCourses enroll
      (sortDesc (fun c => (enroll c).length) cs)).Nodup := by
  have hnd : (activeCourses enroll cs).Nodup :=
    activeCourses_nodup enroll cs ((check_clashes_false_iff enroll cs).mp h)
  have hperm : (activeCourses enroll
      (sortDesc (fun c => (enroll c).length) cs)).Perm
      (activeCourses enroll cs) :=
    (sortDesc_perm (fun c => (enroll c).length) cs).filter _
  exact hperm.nodup_iff.mpr hnd

/-! ### Claim theorems -/

/-- C1 (capacity invariant): for every slot processed by
`allocate_session` and every room (under the implicit data-model
assumption that room names are distinct), the sum of the `Count` fields
over the Allocation Records appended for that slot and that room is at
most the room's `Capacity`. -/
theorem capacity_invariant (st : SystemState)
    (enroll : String → List String) (slot : SlotInfo) (b : Nat)
    (mode : String) (hnames : (st.rooms.map Room.name).Nodup) :
    ∀ r ∈ (allocate_session st enroll slot b mode).rooms,
      sumCounts ((allocate_session st enroll slot b mode).allocations.drop
        st.allocations.length) r.name ≤ r.capacity := by
  intro r hr
  by_cases hcl : check_clashes enroll slot.courses = true
  · simp only [allocate_session, hcl, if_true]
    rw [List.drop_length]
    exact Nat.zero_le _
  · have hfalse : check_clashes enroll slot.courses = false :=
      Bool.eq_false_iff.mpr hcl
    rw [allocate_session_no_clash st enroll slot b mode hfalse] at hr ⊢
    simp only at hr ⊢
    rw [List.drop_left]
    have hzero : sumFilled (st.rooms.map resetRoom) r.name = 0 :=
      sumFilled_zero _ _ (fun r' hr' => (mem_reset_rooms st.rooms r' hr').1)
    have hsum := allocCourses_sum slot enroll b mode
      (sortDesc (fun c => (enroll c).length) slot.courses)
      (st.rooms.map resetRoom) r.name
    have hnd' : (((allocCourses slot enroll b mode
        (sortDesc (fun c => (enroll c).length) slot.courses)
        (st.rooms.map resetRoom)).1).map Room.name).Nodup := by
      rw [allocCourses_names, resetRooms_names]
      exact hnames
    have hfill := sumFilled_eq_filled _ hnd' r hr
    have hle : r.filled ≤ r.capacity - b :=
      allocCourses_filled_le slot enroll b mode
        (sortDesc (fun c => (enroll c).length) slot.courses)
        (st.rooms.map resetRoom)
        (fun r' hr' => by rw [(mem_reset_rooms st.rooms r' hr').1]; exact Nat.zero_le _)
        r hr
    omega

/-- C3 (clash skip, engine level): if the Clash Detector flags the
slot's course list, `allocate_session` leaves every room reset (filled
`0`, empty assignments), the allocation log unchanged, and the
room-statistics log unchanged (the engine returns before the
room-statistics pass). -/
theorem clash_engine_skip (st : SystemState)
    (enroll : String → List String) (slot : SlotInfo) (b : Nat)
    (mode : String) (h : check_clashes enroll slot.courses = true) :
    (∀ r ∈ (allocate_session st enroll slot b mode).rooms,
      r.filled = 0 ∧ r.assignments = []) ∧
    (allocate_session st enroll slot b mode).allocations = st.allocations ∧
    (allocate_session st enroll slot b mode).roomStats = st.roomStats := by
  have e : allocate_session st enroll slot b mode =
      { st with rooms := st.rooms.map resetRoom } := by
    simp only [allocate_session, h, if_true]
  rw [e]
  exact ⟨mem_reset_rooms st.rooms, rfl, rfl⟩

/-- C4 (sparse half-limit): in sparse mode, the number of candidates of
any one course seated in any one room within a slot never exceeds
`(capacity - buffer) / 2` (integer division). -/
theorem sparse_half_limit (st : SystemState)
    (enroll : String → List String) (slot : SlotInfo) (b : Nat) :
    ∀ r ∈ (allocate_session st enroll slot b "sparse").rooms,
      ∀ c, (lookupAssign r.assignments c).length ≤ (r.capacity - b) / 2 := by
  intro r hr c
  by_cases hcl : check_clashes enroll slot.courses = true
  · simp only [allocate_session, hcl, if_true] at hr
    rw [(mem_reset_rooms st.rooms r hr).2]
    simp [lookupAssign]
  · have hfalse : check_clashes enroll slot.courses = false :=
      Bool.eq_false_iff.mpr hcl
    rw [allocate_session_no_clash st enroll slot b "sparse" hfalse] at hr
    simp only at hr
    have hbound := allocCourses_assign_bound slot enroll b "sparse"
      (sortDesc (fun c => (enroll c).length) slot.courses)
      (st.rooms.map resetRoom)
      (activeCourses_sorted_nodup enroll slot.courses hfalse)
      (fun c' _ _ r' hr' => by
        rw [(mem_reset_rooms st.rooms r' hr').2]; rfl)
      (fun r' hr' c' => by
        rw [(mem_reset_rooms st.rooms r' hr').2]
        simp [lookupAssign])
      r hr c
    simpa [subjLimit] using hbound

/-- C5 (buffer respected): after `allocate_session` finishes a slot,
any room with `capacity ≥ buffer` has `filled ≤ capacity - buffer`. -/
theorem buffer_respected (st : SystemState)
    (enroll : String → List String) (slot : SlotInfo) (b : Nat)
    (mode : String) :
    ∀ r ∈ (allocate_session st enroll slot b mode).rooms,
      b ≤ r.capacity → r.filled ≤ r.capacity - b := by
  intro r hr _
  by_cases hcl : check_clashes enroll slot.courses = true
  · simp only [allocate_session, hcl, if_true] at hr
    rw [(mem_reset_rooms st.rooms r hr).1]
    exact Nat.zero_le _
  · have hfalse : check_clashes enroll slot.courses = false :=
      Bool.eq_false_iff.mpr hcl
    rw [allocate_session_no_clash st enroll slot b mode hfalse] at hr
    simp only at hr
    exact allocCourses_filled_le slot enroll b mode
      (sortDesc (fun c => (enroll c).length) slot.courses)
      (st.rooms.map resetRoom)
      (fun r' hr' => by
        rw [(mem_reset_rooms st.rooms r' hr').1]; exact Nat.zero_le _)
      r hr

/-- C9 (unknown-mode fallback): for any `mode` other than `"sparse"`,
`allocate_session` produces exactly the state produced by mode
`"dense"`. -/
theorem unknown_mode_fallback (st : SystemState)
    (enroll : String → List String) (slot : SlotInfo) (b : Nat)
    (mode : String) (h : mode ≠ "sparse") :
    allocate_session st enroll slot b mode =
      allocate_session st enroll slot b "dense" := by
  simp only [allocate_session,
    allocCourses_mode_fallback slot enroll b mode h]

theorem check_clashes_of_shared (enroll : String → List String)
    (cs : List String) (i j : Nat) (hi : i < cs.length)
    (hj : j < cs.length) (hij : i < j) (x : String)
    (hxi : x ∈ enroll (cs.get ⟨i, hi⟩)) (hxj : x ∈ enroll (cs.get ⟨j, hj⟩)) :
    check_clashes enroll cs = true := by
  rw [check_clashes_true_iff]
  intro hnd
  unfold slotRolls at hnd
  rcases List.nodup_flatMap.mp hnd with ⟨-, hpw⟩
  have hd := List.pairwise_iff_getElem.mp hpw i j hi hj hij
  rw [List.get_eq_getElem] at hxi hxj
  exact hd hxi hxj

/-- C2 (amended; clash skip at report level): if two courses of the slot
share a candidate, `allocate_session` appends no Allocation Records and
no Room Statistics for that slot (the engine returns before the
room-statistics pass, so no per-room statistics are recorded at all). -/
theorem clash_skip_no_records (st : SystemState)
    (enroll : String → List String) (slot : SlotInfo) (b : Nat)
    (mode : String)
    (h : ∃ i, ∃ j, ∃ hi : i < slot.courses.length,
      ∃ hj : j < slot.courses.length, i < j ∧
      ∃ x, x ∈ enroll (slot.courses.get ⟨i, hi⟩) ∧
        x ∈ enroll (slot.courses.get ⟨j, hj⟩)) :
    (allocate_session st enroll slot b mode).allocations = st.allocations ∧
    (allocate_session st enroll slot b mode).roomStats = st.roomStats := by
  rcases h with ⟨i, j, hi, hj, hij, x, hxi, hxj⟩
  have hcl := check_clashes_of_shared enroll slot.courses i j hi hj hij x hxi hxj
  have e : allocate_session st enroll slot b mode =
      { st with rooms := st.rooms.map resetRoom } := by
    simp only [allocate_session, hcl, if_true]
  rw [e]
  exact ⟨rfl, rfl⟩

/-- C2 counterexample: a clashing slot over a two-room pool.  The claim
asserts one Room Statistic per room is still recorded (with
`allocated = 0`); in fact none are recorded: the slot's statistics list
is empty while the pool has two rooms. -/
theorem clash_stats_counterexample :
    check_clashes enrollClashW slotW.courses = true ∧
    stW.rooms.length = 2 ∧
    (allocate_session stW enrollClashW slotW 1 "dense").roomStats.length = 0 := by
  decide

/-- C7 (amended; empty slot): on a slot with an empty course list the
engine appends nothing to the allocation log, but it does append one
Room Statistic per room, with `allocated = 0` and `free = capacity`. -/
theorem empty_slot_behavior (st : SystemState)
    (enroll : String → List String) (slot : SlotInfo) (b : Nat)
    (mode : String) (h : slot.courses = []) :
    (allocate_session st enroll slot b mode).allocations = st.allocations ∧
    (allocate_session st enroll slot b mode).roomStats =
      st.roomStats ++ st.rooms.map (fun r =>
        { date := slot.date, session := slot.session, room := r.name
          allocated := 0, free := (r.capacity : Int) : RoomStat }) := by
  have hcl : check_clashes enroll slot.courses = false := by
    rw [h]; rfl
  rw [allocate_session_no_clash st enroll slot b mode hcl]
  rw [h]
  refine ⟨by simp [sortDesc, allocCourses], ?_⟩
  show st.roomStats ++ ((allocCourses slot enroll b mode (sortDesc _ [])
      (st.rooms.map resetRoom)).1).map _ = _
  have hsort : sortDesc (fun c => (enroll c).length) [] = [] := rfl
  rw [hsort]
  show st.roomStats ++ (st.rooms.map resetRoom).map _ = _
  rw [List.map_map]
  refine congrArg (st.roomStats ++ ·) ?_
  refine List.map_congr_left (fun r _ => ?_)
  simp [resetRoom, Function.comp]

/-- C7 counterexample: a slot with an empty course list is not a no-op
on the logs: with a two-room pool the room-statistics log grows by two
entries. -/
theorem empty_slot_counterexample :
    slotEmptyW.courses = [] ∧
    (allocate_session stW enrollW slotEmptyW 5 "dense").roomStats.length =
      stW.roomStats.length + 2 := by
  decide

/-- C10 (implicit prefix property): in a clash-free slot, for every
course, the concatenation (in append order) of the `Students` lists of
the records appended for that course is an initial segment of the
course's roster, and the unseated candidates are exactly the remaining
final segment of the roster. -/
theorem seated_is_front_of_roster (st : SystemState)
    (enroll : String → List String) (slot : SlotInfo) (b : Nat)
    (mode : String) (h : check_clashes enroll slot.courses = false) :
    ∀ c ∈ slot.courses,
      seatedFor (allocate_session st enroll slot b mode)
          st.allocations.length c ++
        (enroll c).drop ((seatedFor (allocate_session st enroll slot b mode)
          st.allocations.length c).length) = enroll c := by
  intro c hc
  rw [allocate_session_no_clash st enroll slot b mode h]
  simp only [seatedFor]
  rw [List.drop_left]
  have hc' : c ∈ sortDesc (fun c => (enroll c).length) slot.courses :=
    (sortDesc_perm (fun c => (enroll c).length) slot.courses).mem_iff.mpr hc
  rcases allocCourses_course_records slot enroll b mode
    (sortDesc (fun c => (enroll c).length) slot.courses)
    (st.rooms.map resetRoom)
    (activeCourses_sorted_nodup enroll slot.courses h) c hc' with ⟨t, ht⟩
  rw [← ht, List.drop_left]

/-- C6 (Clash Detector contract): over rosters without internal
duplicates (the Enrollment Index stores unique identifiers),
`check_clashes` returns `true` exactly when two courses of the slot's
list share a candidate.  The embedding is a pure function of the course
list and the enrollment index, matching the source, which only reads
`self.course_enrollments`. -/
theorem check_clashes_correct (enroll : String → List String)
    (cs : List String) (hnd : ∀ c ∈ cs, (enroll c).Nodup) :
    check_clashes enroll cs = true ↔
      ∃ i, ∃ j, ∃ hi : i < cs.length, ∃ hj : j < cs.length, i < j ∧
        ∃ x, x ∈ enroll (cs.get ⟨i, hi⟩) ∧ x ∈ enroll (cs.get ⟨j, hj⟩) := by
  rw [check_clashes_true_iff]
  unfold slotRolls
  rw [List.nodup_flatMap]
  constructor
  · intro hno
    have hnp : ¬ cs.Pairwise (Function.onFun List.Disjoint enroll) := by
      intro hp
      exact hno ⟨hnd, hp⟩
    rw [List.pairwise_iff_getElem] at hnp
    push_neg at hnp
    rcases hnp with ⟨i, j, hi, hj, hij, hdis⟩
    refine ⟨i, j, hi, hj, hij, ?_⟩
    have hex : ¬ ∀ x ∈ enroll (cs.get ⟨i, hi⟩), x ∉ enroll (cs.get ⟨j, hj⟩) := by
      intro hall
      refine hdis ?_
      intro x hx hx'
      exact hall x hx hx'
    push_neg at hex
    exact hex
  · rintro ⟨i, j, hi, hj, hij, x, hxi, hxj⟩ ⟨-, hpw⟩
    have hd := List.pairwise_iff_getElem.mp hpw i j hi hj hij
    rw [List.get_eq_getElem] at hxi hxj
    exact hd hxi hxj

/-- C8 (largest-first ordering): the course ordering used by
`allocate_session` is a permutation of the slot's course list, sorted
by descending enrollment size, stable (courses of equal size keep their
source order: filtering by any size value is unchanged); in the
specification's example — A with 50 candidates, B with 10, C with 30 —
the processing order is A, C, B. -/
theorem largest_first_ordering :
    (∀ (enroll : String → List String) (l : List String),
      (sortDesc (fun c => (enroll c).length) l).Perm l ∧
      (sortDesc (fun c => (enroll c).length) l).Pairwise
        (fun a b => (enroll b).length ≤ (enroll a).length) ∧
      ∀ k : Nat, (sortDesc (fun c => (enroll c).length) l).filter
          (fun c => (enroll c).length == k) =
        l.filter (fun c => (enroll c).length == k)) ∧
    sortDesc (fun c => (enrollC8 c).length) ["A", "B", "C"] =
      ["A", "C", "B"] := by
  refine ⟨fun enroll l =>
    ⟨sortDesc_perm (fun c => (enroll c).length) l,
      sortDesc_pairwise (fun c => (enroll c).length) l,
      fun k => sortDesc_filter (fun c => (enroll c).length) l k⟩, ?_⟩
  decide

/-! ### Witnesses: each claim theorem applied at a concrete input -/

theorem capacity_invariant_witness :
    (stW.rooms.map Room.name).Nodup ∧
    roomDenseW ∈ (allocate_session stW enrollW slotW 1 "dense").rooms ∧
    sumCounts ((allocate_session stW enrollW slotW 1 "dense").allocations.drop
      stW.allocations.length) roomDenseW.name ≤ roomDenseW.capacity :=
  ⟨by decide, by decide,
    capacity_invariant stW enrollW slotW 1 "dense" (by decide)
      roomDenseW (by decide)⟩

theorem clash_skip_no_records_witness :
    (∃ i, ∃ j, ∃ hi : i < slotW.courses.length,
      ∃ hj : j < slotW.courses.length, i < j ∧
      ∃ x, x ∈ enrollClashW (slotW.courses.get ⟨i, hi⟩) ∧
        x ∈ enrollClashW (slotW.courses.get ⟨j, hj⟩)) ∧
    (allocate_session stW enrollClashW slotW 1 "dense").allocations =
      stW.allocations ∧
    (allocate_session stW enrollClashW slotW 1 "dense").roomStats =
      stW.roomStats := by
  have h : ∃ i, ∃ j, ∃ hi : i < slotW.courses.length,
      ∃ hj : j < slotW.courses.length, i < j ∧
      ∃ x, x ∈ enrollClashW (slotW.courses.get ⟨i, hi⟩) ∧
        x ∈ enrollClashW (slotW.courses.get ⟨j, hj⟩) :=
    ⟨0, 1, by decide, by decide, by decide, "x1", by decide, by decide⟩
  exact ⟨h, (clash_skip_no_records stW enrollClashW slotW 1 "dense" h).1,
    (clash_skip_no_records stW enrollClashW slotW 1 "dense" h).2⟩

theorem clash_engine_skip_witness :
    check_clashes enrollClashW slotW.courses = true ∧
    ((∀ r ∈ (allocate_session stW enrollClashW slotW 1 "dense").rooms,
      r.filled = 0 ∧ r.assignments = []) ∧
    (allocate_session stW enrollClashW slotW 1 "dense").allocations =
      stW.allocations ∧
    (allocate_session stW enrollClashW slotW 1 "dense").roomStats =
      stW.roomStats) :=
  ⟨by decide, clash_engine_skip stW enrollClashW slotW 1 "dense" (by decide)⟩

theorem sparse_half_limit_witness :
    roomSparseW ∈ (allocate_session stW enrollW slotW 1 "sparse").rooms ∧
    (lookupAssign roomSparseW.assignments "A").length ≤
      (roomSparseW.capacity - 1) / 2 :=
  ⟨by decide, sparse_half_limit stW enrollW slotW 1 roomSparseW (by decide) "A"⟩

theorem buffer_respected_witness :
    roomDenseW ∈ (allocate_session stW enrollW slotW 1 "dense").rooms ∧
    1 ≤ roomDenseW.capacity ∧
    roomDenseW.filled ≤ roomDenseW.capacity - 1 :=
  ⟨by decide, by decide,
    buffer_respected stW enrollW slotW 1 "dense" roomDenseW (by decide)
      (by decide)⟩

theorem check_clashes_correct_witness :
    (∀ c ∈ slotW.courses, (enrollClashW c).Nodup) ∧
    (check_clashes enrollClashW slotW.courses = true ↔
      ∃ i, ∃ j, ∃ hi : i < slotW.courses.length,
        ∃ hj : j < slotW.courses.length, i < j ∧
        ∃ x, x ∈ enrollClashW (slotW.courses.get ⟨i, hi⟩) ∧
          x ∈ enrollClashW (slotW.courses.get ⟨j, hj⟩)) :=
  ⟨by decide, check_clashes_correct enrollClashW slotW.courses (by decide)⟩

theorem empty_slot_behavior_witness :
    slotEmptyW.courses = [] ∧
    ((allocate_session stW enrollW slotEmptyW 5 "dense").allocations =
      stW.allocations ∧
    (allocate_session stW enrollW slotEmptyW 5 "dense").roomStats =
      stW.roomStats ++ stW.rooms.map (fun r =>
        { date := slotEmptyW.date, session := slotEmptyW.session
          room := r.name, allocated := 0
          free := (r.capacity : Int) : RoomStat })) :=
  ⟨rfl, empty_slot_behavior stW enrollW slotEmptyW 5 "dense" rfl⟩

theorem unknown_mode_fallback_witness :
    "Dense" ≠ "sparse" ∧
    allocate_session stW enrollW slotW 1 "Dense" =
      allocate_session stW enrollW slotW 1 "dense" :=
  ⟨by decide, unknown_mode_fallback stW enrollW slotW 1 "Dense" (by decide)⟩

theorem seated_is_front_of_roster_witness :
    check_clashes enrollW slotW.courses = false ∧
    "A" ∈ slotW.courses ∧
    seatedFor (allocate_session stW enrollW slotW 1 "dense")
        stW.allocations.length "A" ++
      (enrollW "A").drop ((seatedFor (allocate_session stW enrollW slotW 1
        "dense") stW.allocations.length "A").length) = enrollW "A" :=
  ⟨by decide, by decide,
    seated_is_front_of_roster stW enrollW slotW 1 "dense" (by decide)
      "A" (by decide)⟩
